import Mathlib

/-!
Verification of the similarity-graph construction and clustering subsystem
of the DS210 project (Rust sources `src/graph.rs` / `src/main.rs`).

The Rust functions are shallowly embedded:
* `f64` arithmetic is modelled by exact real arithmetic (`ℝ`); the claims
  under study are structural (which values enter which sums, which edges are
  kept) and do not depend on rounding.
* the petgraph `Graph<String, f64>` is modelled by a node-label list together
  with an edge list of `(source index, target index, weight)` triples, edge
  indices in insertion order, node indices in insertion order — exactly the
  observable content of the petgraph value as used by this program;
* petgraph's `UnionFind` is modelled by a parent array with a fuel-bounded
  `find`; rank and path compression only affect performance and which root
  represents a class, never the computed partition;
* Rust's `{:.6}` float formatting is modelled on the exact rational value of
  the weight (every `f64` is an exact rational), rounding half to even.
-/

/-- Embedding of `calculate_similarity` (graph.rs:52-62): the dot product is
taken over `vec1.iter().zip(vec2)` — the common leading positions — while each
magnitude is the square root of the sum of squares of the *entire* vector;
the quotient is returned only when both magnitudes are positive, else `0.0`. -/
noncomputable def calculate_similarity (vec1 vec2 : List ℝ) : ℝ :=
  let dot_product : ℝ := ((vec1.zip vec2).map (fun p => p.1 * p.2)).sum
  let magnitude1 : ℝ := Real.sqrt ((vec1.map (fun x => x ^ 2)).sum)
  let magnitude2 : ℝ := Real.sqrt ((vec2.map (fun x => x ^ 2)).sum)
  if 0 < magnitude1 ∧ 0 < magnitude2 then dot_product / (magnitude1 * magnitude2)
  else 0

/-- Dot product over the positionally-aligned common leading positions. -/
noncomputable def listDot (u v : List ℝ) : ℝ := (List.zipWith (· * ·) u v).sum

/-- Euclidean norm of a whole feature vector. -/
noncomputable def listNorm (u : List ℝ) : ℝ := Real.sqrt ((u.map (fun x => x * x)).sum)

/-- The similarity the spec describes: dot product *and both norms* computed
over the positionally-aligned common leading positions of the two vectors,
with result `0.0` whenever either of those norms is `0.0`.  Written from the
spec's words, to be compared with `calculate_similarity`. -/
noncomputable def similarity_spec (u v : List ℝ) : ℝ :=
  let w := u.zip v
  let dot : ℝ := (w.map (fun p => p.1 * p.2)).sum
  let n1 : ℝ := Real.sqrt ((w.map (fun p => p.1 ^ 2)).sum)
  let n2 : ℝ := Real.sqrt ((w.map (fun p => p.2 ^ 2)).sum)
  if n1 = 0 ∨ n2 = 0 then 0 else dot / (n1 * n2)

/-- The observable content of a petgraph `Graph<String, W>` as this program
uses it: node labels in insertion order (node index = position) and edges in
insertion order as `(source index, target index, weight)`. -/
structure SimGraph (W : Type) where
  nodes : List String
  edges : List (ℕ × ℕ × W)
deriving Repr

/-- Embedding of the edge-building phase of `build_similarity_graph`
(graph.rs:32-48), starting from the parsed per-row labels `nodes` and feature
vectors `feature_data` (the CSV reading at graph.rs:15-30 is I/O and is the
identity on this data).  One node per row, then for `i` in `0..n` and `j` in
`(i+1)..n` an edge `(i, j, s)` is appended whenever
`s = calculate_similarity(feature_data[i], feature_data[j])` satisfies
`s >= threshold`. -/
noncomputable def build_similarity_graph (nodes : List String)
    (feature_data : List (List ℝ)) (threshold : ℝ) : SimGraph ℝ :=
  { nodes := nodes
    edges := (List.range feature_data.length).flatMap (fun i =>
      ((List.range feature_data.length).filter (fun j => decide (i < j))).filterMap
        (fun j =>
          let similarity :=
            calculate_similarity (feature_data.getD i []) (feature_data.getD j [])
          if threshold ≤ similarity then some (i, j, similarity) else none)) }

/-! ### Union-find (petgraph `UnionFind`) and `cluster_graph` -/

/-- Chase parent pointers for at most `fuel` steps. -/
def findAux (p : List ℕ) : ℕ → ℕ → ℕ
  | 0, x => x
  | fuel + 1, x =>
    let px := p.getD x x
    if px = x then x else findAux p fuel px

/-- Root of `x` in parent array `p` (fuel `p.length` always reaches the root
for the parent forests built below). -/
def ufFind (p : List ℕ) (x : ℕ) : ℕ := findAux p p.length x

/-- Embedding of `UnionFind::union`: link the root of `a` under the root of `b` (which of
the two roots survives is representation only; petgraph picks by rank). -/
def ufUnion (p : List ℕ) (a b : ℕ) : List ℕ :=
  let ra := ufFind p a
  let rb := ufFind p b
  if ra = rb then p else p.set ra rb

/-- The parent array after `UnionFind::new(node_count)` followed by
`uf.union(a, b)` for every edge `(a, b)` in edge order (graph.rs:69-73). -/
def ufParent {W : Type} (g : SimGraph W) : List ℕ :=
  g.edges.foldl (fun p e => ufUnion p e.1 e.2.1) (List.range g.nodes.length)

/-- Embedding of `uf.find(node)` — the component id the program files node `v` under
(graph.rs:78). -/
def rootOf {W : Type} (g : SimGraph W) (v : ℕ) : ℕ := ufFind (ufParent g) v

/-- The node list the `clusters` map holds under key `r` (graph.rs:76-80):
nodes are pushed in `graph.node_indices()` order, i.e. ascending index. -/
def clusterOf {W : Type} (g : SimGraph W) (r : ℕ) : List ℕ :=
  (List.range g.nodes.length).filter (fun v => decide (rootOf g v = r))

/-- The component ids that occur, in first-occurrence order. -/
def clusterRoots {W : Type} (g : SimGraph W) : List ℕ :=
  ((List.range g.nodes.length).map (rootOf g)).dedup

/-- Embedding of `graph.edges(node).count()` (graph.rs:100): the graph is
built with `Graph::<String, f64>::new()` (graph.rs:17), petgraph's *directed*
constructor, and on a directed graph `edges(node)` yields only the edges whose
*source* is `node` — so this count is the out-degree, not the incident
degree. -/
def degree {W : Type} (g : SimGraph W) (v : ℕ) : ℕ :=
  (g.edges.filter (fun e => decide (e.1 = v))).length

/-- The degree notion the spec describes for representative selection: the
count of edges *incident* to `v`, as source or as target.  Written from the
spec's words, to be compared with the code's `degree`. -/
def incidentDegree {W : Type} (g : SimGraph W) (v : ℕ) : ℕ :=
  (g.edges.filter (fun e => decide (e.1 = v) || decide (e.2.1 = v))).length

/-- Rust's `Iterator::max_by_key`: `None` on an empty iterator, otherwise the
*last* element attaining the maximum key. -/
def max_by_key {α : Type} (key : α → ℕ) : List α → Option α
  | [] => none
  | x :: xs => some (xs.foldl (fun acc y => if key acc ≤ key y then y else acc) x)

/-- Embedding of `select_representative` (graph.rs:94-102). -/
def select_representative {W : Type} (g : SimGraph W) (nodes : List ℕ) : Option ℕ :=
  max_by_key (fun node => degree g node) nodes

/-- Embedding of `cluster_graph` (graph.rs:65-91): union-find over all edges,
nodes grouped by root, one representative label per cluster.  The second
parameter is `_k`, unused by the Rust body.  The `HashMap` results are
modelled as association lists (component id, value); iteration order of the
Rust `HashMap` is unspecified, here first-occurrence order of the root. -/
def cluster_graph {W : Type} (g : SimGraph W) (_k : ℕ) : List (ℕ × String) :=
  (clusterRoots g).filterMap (fun r =>
    (select_representative g (clusterOf g r)).map (fun rep => (r, g.nodes.getD rep "")))

/-- Node `v` is incident to no edge of `g`. -/
def Isolated {W : Type} (g : SimGraph W) (v : ℕ) : Prop :=
  ∀ e ∈ g.edges, e.1 ≠ v ∧ e.2.1 ≠ v

instance {W : Type} (g : SimGraph W) (v : ℕ) : Decidable (Isolated g v) := by
  unfold Isolated
  infer_instance

/-- Invariant kept by the union-find loop for an isolated node `v`: `v` is
its own parent and no other cell points at `v`. -/
def UntouchedAt (v : ℕ) (p : List ℕ) : Prop :=
  p.getD v v = v ∧ ∀ y, y ≠ v → p.getD y y ≠ v

/-! ### `export_graph_to_csv` -/

/-- Round `num / den` (with `den > 0`) to the nearest integer, half to even,
as Rust's `{:.prec}` formatting does on the exact value of a float. -/
def roundHalfEven (num den : ℤ) : ℤ :=
  let f := num.fdiv den
  let r := 2 * (num - f * den)
  if r < den then f
  else if den < r then f + 1
  else if f % 2 = 0 then f else f + 1

/-- Decimal digits of `n` padded on the left with zeros to width 6. -/
def pad6 (n : ℕ) : String :=
  let s := toString n
  ⟨List.replicate (6 - s.length) '0'⟩ ++ s

/-- Rust's `{:.6}` applied to the exact rational value of an `f64` weight:
round to 6 fractional digits (half to even) and print with exactly 6
fractional digits. -/
def fmt6 (q : ℚ) : String :=
  let n := roundHalfEven (q.num * 1000000) (q.den : ℤ)
  let m := n.natAbs
  (if n < 0 then "-" else "") ++ toString (m / 1000000) ++ "." ++ pad6 (m % 1000000)

/-- Embedding of `export_graph_to_csv` (graph.rs:105-131) as the list of
lines written to the output file: the header, then for every edge in edge
order `writeln!(file, "{}, {}, {:.6}", source_label, target_label, weight)`.
Weights are taken at their exact rational values. -/
def export_graph_to_csv (g : SimGraph ℚ) : List String :=
  "Source,Target,Weight" ::
    g.edges.map (fun e =>
      (g.nodes.getD e.1 "") ++ ", " ++ (g.nodes.getD e.2.1 "") ++ ", " ++ fmt6 e.2.2)


/-! ### Helper lemmas about the similarity function -/

lemma zip_map_mul (u v : List ℝ) :
    (u.zip v).map (fun p => p.1 * p.2) = List.zipWith (· * ·) u v := by
  induction u generalizing v with
  | nil => simp
  | cons a u ih =>
    cases v with
    | nil => simp
    | cons b v => simp [ih]

lemma sum_map_sq_nonneg (l : List ℝ) : 0 ≤ (l.map (fun x => x ^ 2)).sum := by
  apply List.sum_nonneg
  intro x hx
  obtain ⟨y, _, rfl⟩ := List.mem_map.mp hx
  positivity

lemma pow_two_eq_mul_self (l : List ℝ) :
    (l.map (fun x => x ^ 2)).sum = (l.map (fun x => x * x)).sum := by
  congr 1
  apply List.map_congr_left
  intro x _
  ring

/-- Claim C1, amended: `calculate_similarity` equals the dot product over the
common leading positions divided by the product of the *full-vector* norms,
and is `0` exactly when one of the full-vector norms is `0`. -/
theorem C1_thm (u v : List ℝ) :
    calculate_similarity u v =
      if listNorm u = 0 ∨ listNorm v = 0 then 0
      else listDot u v / (listNorm u * listNorm v) := by
  unfold calculate_similarity listNorm listDot
  rw [zip_map_mul, ← pow_two_eq_mul_self u, ← pow_two_eq_mul_self v]
  have hu : 0 ≤ Real.sqrt ((u.map (fun x => x ^ 2)).sum) := Real.sqrt_nonneg _
  have hv : 0 ≤ Real.sqrt ((v.map (fun x => x ^ 2)).sum) := Real.sqrt_nonneg _
  by_cases h : Real.sqrt ((u.map (fun x => x ^ 2)).sum) = 0 ∨
      Real.sqrt ((v.map (fun x => x ^ 2)).sum) = 0
  · rw [if_pos h, if_neg]
    rintro ⟨h1, h2⟩
    rcases h with h | h
    · exact absurd h (ne_of_gt h1)
    · exact absurd h (ne_of_gt h2)
  · have hpos : 0 < Real.sqrt ((u.map (fun x => x ^ 2)).sum) ∧
        0 < Real.sqrt ((v.map (fun x => x ^ 2)).sum) := by
      push_neg at h
      exact ⟨lt_of_le_of_ne hu (Ne.symm h.1), lt_of_le_of_ne hv (Ne.symm h.2)⟩
    rw [if_pos hpos, if_neg h]

/-- Claim C1 fails as stated: on `u = [1, 1]`, `v = [1]` the code divides the
prefix dot product `1` by the full norms `√2 · 1`, not by the prefix norms
`1 · 1` the claim describes. -/
theorem C1_counterexample :
    calculate_similarity [1, 1] [1] ≠ similarity_spec [1, 1] [1] := by
  have hspec : similarity_spec [1, 1] [1] = 1 := by
    unfold similarity_spec
    norm_num [Real.sqrt_one]
  have hsqrt2 : (1 : ℝ) < Real.sqrt 2 := by
    have := Real.sqrt_lt_sqrt (by norm_num : (0:ℝ) ≤ 1) (by norm_num : (1:ℝ) < 2)
    simpa using this
  have hcode : calculate_similarity [1, 1] [1] = 1 / Real.sqrt 2 := by
    unfold calculate_similarity
    have hc : 0 < Real.sqrt (((([1, 1] : List ℝ)).map (fun x => x ^ 2)).sum) ∧
        0 < Real.sqrt (((([1] : List ℝ)).map (fun x => x ^ 2)).sum) := by
      constructor
      · exact Real.sqrt_pos.mpr (by norm_num)
      · exact Real.sqrt_pos.mpr (by norm_num)
    rw [if_pos hc]
    norm_num [Real.sqrt_one]
  rw [hcode, hspec]
  have hlt : 1 / Real.sqrt 2 < 1 := by
    rw [div_lt_one (lt_trans one_pos hsqrt2)]
    exact hsqrt2
  exact ne_of_lt hlt

/-- Claim C10: the second parameter of `cluster_graph` (`_k`, presented as the
number of desired representatives) has no influence on the result. -/
theorem C10_thm {W : Type} (g : SimGraph W) (k1 k2 : ℕ) :
    cluster_graph g k1 = cluster_graph g k2 := rfl

/-! ### `max_by_key` and representative selection -/

lemma foldl_max_by_key_spec {α : Type} (key : α → ℕ) :
    ∀ (xs : List α) (x : α),
      ∃ l₁ l₂,
        x :: xs = l₁ ++ (xs.foldl (fun acc y => if key acc ≤ key y then y else acc) x) :: l₂ ∧
        (∀ a ∈ x :: xs,
          key a ≤ key (xs.foldl (fun acc y => if key acc ≤ key y then y else acc) x)) ∧
        (∀ a ∈ l₂,
          key a < key (xs.foldl (fun acc y => if key acc ≤ key y then y else acc) x)) := by
  intro xs
  induction xs with
  | nil =>
    intro x
    exact ⟨[], [], by simp, by simp, by simp⟩
  | cons y ys ih =>
    intro x
    rw [List.foldl_cons]
    by_cases hxy : key x ≤ key y
    · rw [if_pos hxy]
      obtain ⟨l₁, l₂, hdec, hmax, hstrict⟩ := ih y
      refine ⟨x :: l₁, l₂, by rw [List.cons_append, ← hdec], ?_, hstrict⟩
      intro a ha
      rcases List.mem_cons.mp ha with rfl | ha
      · exact le_trans hxy (hmax y (List.mem_cons_self _ _))
      · exact hmax a ha
    · rw [if_neg hxy]
      push_neg at hxy
      obtain ⟨l₁, l₂, hdec, hmax, hstrict⟩ := ih x
      revert hdec hmax hstrict
      generalize List.foldl (fun acc y => if key acc ≤ key y then y else acc) x ys = R
      intro hdec hmax hstrict
      cases l₁ with
      | nil =>
        rw [List.nil_append] at hdec
        injection hdec with h1 h2
        subst h2
        subst h1
        refine ⟨[], y :: ys, rfl, ?_, ?_⟩
        · intro a ha
          rcases List.mem_cons.mp ha with rfl | ha
          · exact le_refl _
          · rcases List.mem_cons.mp ha with rfl | ha
            · exact le_of_lt hxy
            · exact hmax a (List.mem_cons_of_mem _ ha)
        · intro a ha
          rcases List.mem_cons.mp ha with rfl | ha
          · exact hxy
          · exact hstrict a ha
      | cons z l₁ =>
        rw [List.cons_append] at hdec
        injection hdec with h1 h2
        subst h1
        refine ⟨x :: y :: l₁, l₂, ?_, ?_, hstrict⟩
        · rw [List.cons_append, List.cons_append, ← h2]
        · intro a ha
          rcases List.mem_cons.mp ha with rfl | ha
          · exact hmax a (List.mem_cons_self _ _)
          · rcases List.mem_cons.mp ha with rfl | ha
            · exact le_trans (le_of_lt hxy) (hmax x (List.mem_cons_self _ _))
            · exact hmax a (List.mem_cons_of_mem _ ha)

lemma max_by_key_spec {α : Type} (key : α → ℕ) (l : List α) (r : α)
    (h : max_by_key key l = some r) :
    ∃ l₁ l₂, l = l₁ ++ r :: l₂ ∧ (∀ a ∈ l, key a ≤ key r) ∧ ∀ a ∈ l₂, key a < key r := by
  cases l with
  | nil => simp [max_by_key] at h
  | cons x xs =>
    simp only [max_by_key, Option.some.injEq] at h
    obtain ⟨l₁, l₂, hdec, hmax, hstrict⟩ := foldl_max_by_key_spec key xs x
    rw [h] at hdec hmax hstrict
    exact ⟨l₁, l₂, hdec, hmax, hstrict⟩

lemma max_by_key_isSome {α : Type} (key : α → ℕ) (x : α) (xs : List α) :
    ∃ r, max_by_key key (x :: xs) = some r := by
  simp [max_by_key]

/-- Claim C4, amended: on a non-empty cluster node list,
`select_representative` returns `some` node of the list whose *out-degree*
in the full graph — the count `graph.edges(node).count()` actually computes
on the directed graph, i.e. edges with the node as source — is maximal among
the list's nodes.  (The claim's "count of incident edges" is refuted by
`C4_counterexample` below.) -/
theorem C4_thm {W : Type} (g : SimGraph W) (cluster : List ℕ)
    (h : cluster ≠ []) :
    ∃ r, select_representative g cluster = some r ∧ r ∈ cluster ∧
      ∀ v ∈ cluster, degree g v ≤ degree g r := by
  cases cluster with
  | nil => exact absurd rfl h
  | cons x xs =>
    obtain ⟨r, hr⟩ := max_by_key_isSome (fun node => degree g node) x xs
    obtain ⟨l₁, l₂, hdec, hmax, _⟩ := max_by_key_spec _ _ _ hr
    exact ⟨r, hr, by rw [hdec]; exact List.mem_append_right _ (List.mem_cons_self _ _), hmax⟩

/-- Witness for claim C4 on a concrete graph and cluster list. -/
theorem C4_witness :
    ∃ r, select_representative (⟨["A", "B", "C"], [(0, 1, (1 : ℚ))]⟩ : SimGraph ℚ) [0, 1] = some r ∧
      r ∈ [0, 1] ∧
      ∀ v ∈ [0, 1],
        degree (⟨["A", "B", "C"], [(0, 1, (1 : ℚ))]⟩ : SimGraph ℚ) v ≤
          degree (⟨["A", "B", "C"], [(0, 1, (1 : ℚ))]⟩ : SimGraph ℚ) r :=
  C4_thm (⟨["A", "B", "C"], [(0, 1, (1 : ℚ))]⟩ : SimGraph ℚ) [0, 1] (by decide)

/-- Claim C4 fails as stated: in the graph with edges `(0, 2)` and `(1, 2)`,
`select_representative` on the list `[0, 1, 2]` keys on out-degrees
`1, 1, 0` and returns node `1`, whose count of *incident* edges (`1`) is not
maximal in the list — node `2` is in the list with `2` incident edges. -/
theorem C4_counterexample :
    select_representative
        (⟨["A", "B", "C"], [(0, 2, (1 : ℚ)), (1, 2, (1 : ℚ))]⟩ : SimGraph ℚ) [0, 1, 2] =
      some 1 ∧
    (2 : ℕ) ∈ [0, 1, 2] ∧
    incidentDegree (⟨["A", "B", "C"], [(0, 2, (1 : ℚ)), (1, 2, (1 : ℚ))]⟩ : SimGraph ℚ) 1 <
      incidentDegree (⟨["A", "B", "C"], [(0, 2, (1 : ℚ)), (1, 2, (1 : ℚ))]⟩ : SimGraph ℚ) 2 := by
  decide

/-- Claim C5, amended: when several nodes of the cluster list tie at the
maximum *out-degree* (the key `graph.edges(node).count()` actually computes
on the directed graph), `select_representative` returns the *last* such node
of the list — every node strictly after the returned one has strictly
smaller out-degree. -/
theorem C5_thm {W : Type} (g : SimGraph W) (cluster : List ℕ) (r : ℕ)
    (h : select_representative g cluster = some r) :
    ∃ l₁ l₂, cluster = l₁ ++ r :: l₂ ∧ (∀ v ∈ cluster, degree g v ≤ degree g r) ∧
      ∀ v ∈ l₂, degree g v < degree g r :=
  max_by_key_spec _ _ _ h

/-- Witness for claim C5's amended statement on a concrete graph: with edges
`(0, 2)` and `(1, 2)`, nodes `0` and `1` tie at out-degree `1` and the last
tied node `1` is returned. -/
theorem C5_witness :
    ∃ l₁ l₂, ([0, 1] : List ℕ) = l₁ ++ 1 :: l₂ ∧
      (∀ v ∈ [0, 1],
        degree (⟨["A", "B", "C"], [(0, 2, (1 : ℚ)), (1, 2, (1 : ℚ))]⟩ : SimGraph ℚ) v ≤
          degree (⟨["A", "B", "C"], [(0, 2, (1 : ℚ)), (1, 2, (1 : ℚ))]⟩ : SimGraph ℚ) 1) ∧
      ∀ v ∈ l₂,
        degree (⟨["A", "B", "C"], [(0, 2, (1 : ℚ)), (1, 2, (1 : ℚ))]⟩ : SimGraph ℚ) v <
          degree (⟨["A", "B", "C"], [(0, 2, (1 : ℚ)), (1, 2, (1 : ℚ))]⟩ : SimGraph ℚ) 1 :=
  C5_thm (⟨["A", "B", "C"], [(0, 2, (1 : ℚ)), (1, 2, (1 : ℚ))]⟩ : SimGraph ℚ) [0, 1] 1
    (by decide)

/-- Claim C5 fails as stated: in the graph with edges `(0, 2)` and `(1, 2)`,
nodes `0` and `1` of the list `[0, 1]` tie at the maximum degree (out-degree
`1`, and also `1` incident edge each), yet `select_representative` returns
the *last* tied node `1`, not the earliest tied node `0`. -/
theorem C5_counterexample :
    degree (⟨["A", "B", "C"], [(0, 2, (1 : ℚ)), (1, 2, (1 : ℚ))]⟩ : SimGraph ℚ) 0 =
      degree (⟨["A", "B", "C"], [(0, 2, (1 : ℚ)), (1, 2, (1 : ℚ))]⟩ : SimGraph ℚ) 1 ∧
    incidentDegree (⟨["A", "B", "C"], [(0, 2, (1 : ℚ)), (1, 2, (1 : ℚ))]⟩ : SimGraph ℚ) 0 =
      incidentDegree (⟨["A", "B", "C"], [(0, 2, (1 : ℚ)), (1, 2, (1 : ℚ))]⟩ : SimGraph ℚ) 1 ∧
    (∀ v ∈ [0, 1],
      degree (⟨["A", "B", "C"], [(0, 2, (1 : ℚ)), (1, 2, (1 : ℚ))]⟩ : SimGraph ℚ) v ≤
        degree (⟨["A", "B", "C"], [(0, 2, (1 : ℚ)), (1, 2, (1 : ℚ))]⟩ : SimGraph ℚ) 0) ∧
    select_representative
        (⟨["A", "B", "C"], [(0, 2, (1 : ℚ)), (1, 2, (1 : ℚ))]⟩ : SimGraph ℚ) [0, 1] ≠
      some 0 ∧
    select_representative
        (⟨["A", "B", "C"], [(0, 2, (1 : ℚ)), (1, 2, (1 : ℚ))]⟩ : SimGraph ℚ) [0, 1] =
      some 1 := by
  decide

/-! ### Connected-component partition (`cluster_graph`, graph.rs:69-80) -/

lemma findAux_self (p : List ℕ) (v : ℕ) (h : p.getD v v = v) :
    ∀ fuel, findAux p fuel v = v := by
  intro fuel
  cases fuel with
  | zero => rfl
  | succ n =>
    show (if p.getD v v = v then v else findAux p n (p.getD v v)) = v
    rw [if_pos h]

lemma findAux_ne (p : List ℕ) (v : ℕ) (h : ∀ y, y ≠ v → p.getD y y ≠ v) :
    ∀ fuel y, y ≠ v → findAux p fuel y ≠ v := by
  intro fuel
  induction fuel with
  | zero => intro y hy; exact hy
  | succ n ih =>
    intro y hy
    unfold findAux
    dsimp only
    split_ifs with hpx
    · exact hy
    · exact ih _ (h y hy)

lemma untouched_union (v a b : ℕ) (p : List ℕ) (ha : a ≠ v) (hb : b ≠ v)
    (h : UntouchedAt v p) : UntouchedAt v (ufUnion p a b) := by
  obtain ⟨hself, hoth⟩ := h
  have hra : ufFind p a ≠ v := findAux_ne p v hoth _ a ha
  have hrb : ufFind p b ≠ v := findAux_ne p v hoth _ b hb
  unfold ufUnion
  dsimp only
  split_ifs with heq
  · exact ⟨hself, hoth⟩
  · constructor
    · rw [List.getD_eq_getElem?_getD, List.getElem?_set_ne hra,
        ← List.getD_eq_getElem?_getD]
      exact hself
    · intro y hy
      by_cases hyra : y = ufFind p a
      · subst hyra
        rw [List.getD_eq_getElem?_getD, List.getElem?_set_self']
        cases hget : p[ufFind p a]? with
        | none => exact fun hc => hy hc
        | some w => exact hrb
      · rw [List.getD_eq_getElem?_getD, List.getElem?_set_ne (fun hc => hyra hc.symm),
          ← List.getD_eq_getElem?_getD]
        exact hoth y hy

lemma untouched_fold {W : Type} (v : ℕ) (l : List (ℕ × ℕ × W))
    (hl : ∀ e ∈ l, e.1 ≠ v ∧ e.2.1 ≠ v) :
    ∀ p, UntouchedAt v p →
      UntouchedAt v (l.foldl (fun p e => ufUnion p e.1 e.2.1) p) := by
  induction l with
  | nil => intro p hp; exact hp
  | cons e l ih =>
    intro p hp
    rw [List.foldl_cons]
    exact ih (fun e' he' => hl e' (List.mem_cons_of_mem _ he')) _
      (untouched_union v e.1 e.2.1 p (hl e (List.mem_cons_self _ _)).1
        (hl e (List.mem_cons_self _ _)).2 hp)

lemma untouched_init (v n : ℕ) : UntouchedAt v (List.range n) := by
  constructor
  · rcases lt_or_ge v n with h | h
    · rw [List.getD_eq_getElem?_getD, List.getElem?_range h]
      rfl
    · rw [List.getD_eq_getElem?_getD, List.getElem?_eq_none (by simpa using h)]
      rfl
  · intro y hy
    rcases lt_or_ge y n with h | h
    · rw [List.getD_eq_getElem?_getD, List.getElem?_range h]
      exact hy
    · rw [List.getD_eq_getElem?_getD, List.getElem?_eq_none (by simpa using h)]
      exact hy

lemma rootOf_isolated {W : Type} (g : SimGraph W) (v : ℕ) (hv : Isolated g v) :
    rootOf g v = v ∧ ∀ y, y ≠ v → rootOf g y ≠ v := by
  have h : UntouchedAt v (ufParent g) :=
    untouched_fold v g.edges hv _ (untouched_init v _)
  exact ⟨findAux_self _ _ h.1 _, fun y hy => findAux_ne _ _ h.2 _ y hy⟩

lemma filter_range_single (n v : ℕ) (hv : v < n) (p : ℕ → Bool)
    (hp : ∀ x, p x = true ↔ x = v) :
    (List.range n).filter p = [v] := by
  induction n with
  | zero => omega
  | succ m ih =>
    rw [List.range_succ, List.filter_append]
    rcases lt_or_ge v m with h | h
    · rw [ih h]
      have hm : p m = false := by
        by_contra hb
        rw [Bool.not_eq_false] at hb
        exact absurd ((hp m).mp hb) (by omega)
      simp [hm]
    · have hvm : v = m := by omega
      subst hvm
      have h1 : (List.range v).filter p = [] := by
        rw [List.filter_eq_nil_iff]
        intro a ha
        have hav : a ≠ v := by
          have := List.mem_range.mp ha
          omega
        simp only [ne_eq, hp]
        exact hav
      rw [h1]
      simp [(hp v).mpr rfl]

/-- Claim C3: the clusters computed by `cluster_graph`'s grouping step partition
the node set: every node lies in the cluster of its own root and that root is
a recorded cluster id; a node lies only in the cluster of its root; clusters
with distinct ids are disjoint; cluster members are exactly the graph's nodes;
and a node with no incident edge forms its own singleton cluster. -/
theorem C3_thm {W : Type} (g : SimGraph W) :
    (∀ v, v < g.nodes.length →
      v ∈ clusterOf g (rootOf g v) ∧ rootOf g v ∈ clusterRoots g) ∧
    (∀ r v, v ∈ clusterOf g r → r = rootOf g v ∧ v < g.nodes.length) ∧
    (∀ r r', r ≠ r' → ∀ v, v ∈ clusterOf g r → v ∉ clusterOf g r') ∧
    (∀ v, Isolated g v → v < g.nodes.length → clusterOf g (rootOf g v) = [v]) := by
  have hmem : ∀ r v, v ∈ clusterOf g r ↔ v < g.nodes.length ∧ rootOf g v = r := by
    intro r v
    simp [clusterOf, List.mem_filter, List.mem_range]
  refine ⟨?_, ?_, ?_, ?_⟩
  · intro v hv
    constructor
    · exact (hmem _ _).mpr ⟨hv, rfl⟩
    · simp only [clusterRoots, List.mem_dedup, List.mem_map]
      exact ⟨v, List.mem_range.mpr hv, rfl⟩
  · intro r v hvr
    obtain ⟨h1, h2⟩ := (hmem _ _).mp hvr
    exact ⟨h2.symm, h1⟩
  · intro r r' hne v hvr hvr'
    obtain ⟨_, h2⟩ := (hmem _ _).mp hvr
    obtain ⟨_, h2'⟩ := (hmem _ _).mp hvr'
    exact hne (h2 ▸ h2')
  · intro v hiso hv
    obtain ⟨hroot, hoth⟩ := rootOf_isolated g v hiso
    unfold clusterOf
    apply filter_range_single _ _ hv
    intro x
    simp only [decide_eq_true_eq]
    constructor
    · intro hx
      by_contra hxv
      exact hoth x hxv (by rw [hx, hroot])
    · intro hx
      subst hx
      rfl

/-- Witness for claim C3 on a concrete graph: in `A — B, C` the edgeless node `2`
is a singleton cluster, and node `0` sits in the cluster of its root. -/
theorem C3_witness :
    clusterOf (⟨["A", "B", "C"], [(0, 1, (1 : ℚ))]⟩ : SimGraph ℚ)
        (rootOf (⟨["A", "B", "C"], [(0, 1, (1 : ℚ))]⟩ : SimGraph ℚ) 2) = [2] :=
  (C3_thm (⟨["A", "B", "C"], [(0, 1, (1 : ℚ))]⟩ : SimGraph ℚ)).2.2.2 2 (by decide) (by decide)

/-! ### Edge membership in the built graph (`C2`, `C6`, `C7`) -/

lemma mem_build_edges (nodes : List String) (fd : List (List ℝ)) (t : ℝ)
    (e : ℕ × ℕ × ℝ) :
    e ∈ (build_similarity_graph nodes fd t).edges ↔
      e.1 < fd.length ∧ e.2.1 < fd.length ∧ e.1 < e.2.1 ∧
      t ≤ calculate_similarity (fd.getD e.1 []) (fd.getD e.2.1 []) ∧
      e.2.2 = calculate_similarity (fd.getD e.1 []) (fd.getD e.2.1 []) := by
  obtain ⟨i, j, w⟩ := e
  simp only [build_similarity_graph, List.mem_flatMap, List.mem_filterMap,
    List.mem_filter, List.mem_range, decide_eq_true_eq]
  constructor
  · rintro ⟨i', hi', j', ⟨hj', hij'⟩, hopt⟩
    by_cases hth : t ≤ calculate_similarity (fd.getD i' []) (fd.getD j' [])
    · rw [if_pos hth] at hopt
      simp only [Option.some.injEq, Prod.mk.injEq] at hopt
      obtain ⟨rfl, rfl, hw⟩ := hopt
      exact ⟨hi', hj', hij', hth, hw.symm⟩
    · rw [if_neg hth] at hopt
      exact absurd hopt (by simp)
  · rintro ⟨hi, hj, hij, hth, rfl⟩
    exact ⟨i, hi, j, ⟨hj, hij⟩, by rw [if_pos hth]⟩

lemma calc_sim_single : calculate_similarity [(1 : ℝ)] [(1 : ℝ)] = 1 := by
  unfold calculate_similarity
  rw [if_pos]
  · norm_num [Real.sqrt_one]
  · norm_num [Real.sqrt_one]

/-- Claim C2: for `i < j` within range, the built graph has an edge between `i`
and `j` exactly when the similarity of their feature vectors reaches the
threshold, and any present edge carries that similarity as its weight. -/
theorem C2_thm (nodes : List String) (fd : List (List ℝ)) (t : ℝ) (i j : ℕ)
    (hij : i < j) (hj : j < fd.length) :
    ((∃ w, (i, j, w) ∈ (build_similarity_graph nodes fd t).edges) ↔
      t ≤ calculate_similarity (fd.getD i []) (fd.getD j [])) ∧
    ∀ w, (i, j, w) ∈ (build_similarity_graph nodes fd t).edges →
      w = calculate_similarity (fd.getD i []) (fd.getD j []) := by
  constructor
  · constructor
    · rintro ⟨w, hw⟩
      exact ((mem_build_edges _ _ _ _).mp hw).2.2.2.1
    · intro hth
      exact ⟨calculate_similarity (fd.getD i []) (fd.getD j []),
        (mem_build_edges _ _ _ _).mpr ⟨lt_trans hij hj, hj, hij, hth, rfl⟩⟩
  · intro w hw
    exact ((mem_build_edges _ _ _ _).mp hw).2.2.2.2

/-- Witness for claim C2: two single-feature rows `[1]` and `[1]` have similarity
`1`, so with threshold `0` the edge `(0, 1)` with weight `1` is present. -/
theorem C2_witness :
    ((0 : ℕ), (1 : ℕ), (1 : ℝ)) ∈
      (build_similarity_graph ["A", "B"] [[1], [1]] 0).edges := by
  have h := C2_thm ["A", "B"] [[1], [1]] 0 0 1 (by norm_num) (by norm_num)
  have hsim : calculate_similarity (([[1], [1]] : List (List ℝ)).getD 0 [])
      (([[1], [1]] : List (List ℝ)).getD 1 []) = 1 := calc_sim_single
  obtain ⟨w, hw⟩ := h.1.mpr (by rw [hsim]; norm_num)
  have hw1 : w = 1 := by rw [h.2 w hw, hsim]
  rwa [hw1] at hw

/-- Claim C7: raising the threshold never adds an edge — every edge of the graph
built at the larger threshold is an edge of the graph built at the smaller
one. -/
theorem C7_thm (nodes : List String) (fd : List (List ℝ)) (t1 t2 : ℝ)
    (h : t1 ≤ t2) :
    ∀ e ∈ (build_similarity_graph nodes fd t2).edges,
      e ∈ (build_similarity_graph nodes fd t1).edges := by
  intro e he
  obtain ⟨h1, h2, h3, h4, h5⟩ := (mem_build_edges _ _ _ _).mp he
  exact (mem_build_edges _ _ _ _).mpr ⟨h1, h2, h3, le_trans h h4, h5⟩

/-- Witness for claim C7: the edge kept at threshold `1` is also kept at the
lower threshold `1/2`. -/
theorem C7_witness :
    ((0 : ℕ), (1 : ℕ), (1 : ℝ)) ∈
      (build_similarity_graph ["A", "B"] [[1], [1]] (1 / 2)).edges := by
  apply C7_thm ["A", "B"] [[1], [1]] (1 / 2) 1 (by norm_num)
  exact (mem_build_edges _ _ _ _).mpr
    ⟨by norm_num, by norm_num, by norm_num, by rw [show (([[1], [1]] : List (List ℝ)).getD 0 []) = [1] from rfl,
        show (([[1], [1]] : List (List ℝ)).getD 1 []) = [1] from rfl, calc_sim_single],
      by rw [show (([[1], [1]] : List (List ℝ)).getD 0 []) = [1] from rfl,
        show (([[1], [1]] : List (List ℝ)).getD 1 []) = [1] from rfl, calc_sim_single]⟩

/-! ### Cosine-similarity range and simplicity of the built graph (`C6`) -/

lemma list_map_sum_fin {α : Type} (f : α → ℝ) (l : List α) :
    (l.map f).sum = ∑ i : Fin l.length, f (l.get i) := by
  induction l with
  | nil => simp
  | cons a l ih =>
    simp only [List.map_cons, List.sum_cons, List.length_cons, Fin.sum_univ_succ]
    rw [ih]
    rfl

lemma zip_cs (u v : List ℝ) :
    (((u.zip v).map (fun p => p.1 * p.2)).sum) ^ 2 ≤
      (((u.zip v).map (fun p => p.1 ^ 2)).sum) *
        (((u.zip v).map (fun p => p.2 ^ 2)).sum) := by
  rw [list_map_sum_fin, list_map_sum_fin, list_map_sum_fin]
  exact Finset.sum_mul_sq_le_sq_mul_sq Finset.univ
    (fun i => ((u.zip v).get i).1) (fun i => ((u.zip v).get i).2)

lemma zip_fst_sq_le (u v : List ℝ) :
    ((u.zip v).map (fun p => p.1 ^ 2)).sum ≤ (u.map (fun x => x ^ 2)).sum := by
  induction u generalizing v with
  | nil => simp
  | cons a u ih =>
    cases v with
    | nil => simpa using sum_map_sq_nonneg (a :: u)
    | cons b v =>
      simp only [List.zip_cons_cons, List.map_cons, List.sum_cons]
      exact add_le_add_left (ih v) _

lemma zip_snd_sq_le (u v : List ℝ) :
    ((u.zip v).map (fun p => p.2 ^ 2)).sum ≤ (v.map (fun x => x ^ 2)).sum := by
  induction u generalizing v with
  | nil => simpa using sum_map_sq_nonneg v
  | cons a u ih =>
    cases v with
    | nil => simp
    | cons b v =>
      simp only [List.zip_cons_cons, List.map_cons, List.sum_cons]
      exact add_le_add_left (ih v) _

lemma zip_snd_sq_nonneg (u v : List ℝ) :
    0 ≤ ((u.zip v).map (fun p => p.2 ^ 2)).sum := by
  apply List.sum_nonneg
  intro x hx
  obtain ⟨p, _, rfl⟩ := List.mem_map.mp hx
  positivity

lemma dot_sq_le (u v : List ℝ) :
    (((u.zip v).map (fun p => p.1 * p.2)).sum) ^ 2 ≤
      ((u.map (fun x => x ^ 2)).sum) * ((v.map (fun x => x ^ 2)).sum) :=
  le_trans (zip_cs u v)
    (mul_le_mul (zip_fst_sq_le u v) (zip_snd_sq_le u v)
      (zip_snd_sq_nonneg u v) (sum_map_sq_nonneg u))

/-- Cosine similarity of any two vectors lies in `[-1, 1]`, even when the
vectors have different lengths (the truncated dot product is bounded by the
full norms by Cauchy-Schwarz and monotonicity of sums of squares). -/
lemma similarity_mem_Icc (u v : List ℝ) :
    -1 ≤ calculate_similarity u v ∧ calculate_similarity u v ≤ 1 := by
  unfold calculate_similarity
  dsimp only
  split_ifs with h
  · obtain ⟨h1, h2⟩ := h
    have hsu : (0 : ℝ) ≤ (u.map (fun x => x ^ 2)).sum := sum_map_sq_nonneg u
    have habs : |((u.zip v).map (fun p => p.1 * p.2)).sum| ≤
        Real.sqrt ((u.map (fun x => x ^ 2)).sum) *
          Real.sqrt ((v.map (fun x => x ^ 2)).sum) := by
      have hds := dot_sq_le u v
      have hs := Real.sqrt_le_sqrt hds
      rwa [Real.sqrt_sq_eq_abs, Real.sqrt_mul hsu] at hs
    have hpos : 0 < Real.sqrt ((u.map (fun x => x ^ 2)).sum) *
        Real.sqrt ((v.map (fun x => x ^ 2)).sum) := mul_pos h1 h2
    obtain ⟨hl, hr⟩ := abs_le.mp habs
    constructor
    · rw [le_div_iff₀ hpos]
      linarith
    · rw [div_le_one hpos]
      exact hr
  · norm_num

/-- Claim C6: every graph `build_similarity_graph` produces is simple — every
edge goes from a lower to a strictly higher node index (hence no self-loop),
no two edges connect the same unordered node pair — and every retained weight
is at least the threshold and lies in `[-1, 1]`. -/
theorem C6_thm (nodes : List String) (fd : List (List ℝ)) (t : ℝ) :
    (∀ e ∈ (build_similarity_graph nodes fd t).edges,
      e.1 < e.2.1 ∧ e.1 ≠ e.2.1 ∧ t ≤ e.2.2 ∧ -1 ≤ e.2.2 ∧ e.2.2 ≤ 1) ∧
    ((build_similarity_graph nodes fd t).edges.map (fun e => (e.1, e.2.1))).Nodup := by
  constructor
  · intro e he
    obtain ⟨h1, h2, h3, h4, h5⟩ := (mem_build_edges _ _ _ _).mp he
    refine ⟨h3, Nat.ne_of_lt h3, ?_, ?_, ?_⟩
    · rw [h5]; exact h4
    · rw [h5]; exact (similarity_mem_Icc _ _).1
    · rw [h5]; exact (similarity_mem_Icc _ _).2
  · simp only [build_similarity_graph]
    rw [List.map_flatMap, List.nodup_flatMap]
    constructor
    · intro i _
      rw [List.map_filterMap]
      apply List.Nodup.filterMap
      · intro a a' b hb hb'
        by_cases ha : t ≤ calculate_similarity (fd.getD i []) (fd.getD a [])
        · rw [if_pos ha] at hb
          by_cases ha' : t ≤ calculate_similarity (fd.getD i []) (fd.getD a' [])
          · rw [if_pos ha'] at hb'
            simp only [Option.map_some', Option.mem_def, Option.some.injEq] at hb hb'
            rw [← hb'] at hb
            exact congrArg Prod.snd hb
          · rw [if_neg ha'] at hb'
            simp at hb'
        · rw [if_neg ha] at hb
          simp at hb
      · exact (List.nodup_range _).filter _
    · have hfst : ∀ i b, b ∈ (((List.range fd.length).filter
          (fun j => decide (i < j))).filterMap
            (fun j =>
              if t ≤ calculate_similarity (fd.getD i []) (fd.getD j []) then
                some (i, j, calculate_similarity (fd.getD i []) (fd.getD j []))
              else none)).map (fun e => (e.1, e.2.1)) → b.1 = i := by
        intro i b hb
        obtain ⟨e, he, rfl⟩ := List.mem_map.mp hb
        obtain ⟨j, _, hopt⟩ := List.mem_filterMap.mp he
        split_ifs at hopt with hc
        simp only [Option.some.injEq] at hopt
        rw [← hopt]
      apply List.Pairwise.imp ?_ (List.nodup_range fd.length)
      intro a b hne x hx hx'
      exact hne ((hfst a x hx).symm.trans (hfst b x hx'))

lemma edge_mem_example (t : ℝ) (ht : t ≤ 1) :
    ((0 : ℕ), (1 : ℕ), (1 : ℝ)) ∈
      (build_similarity_graph ["A", "B"] [[1], [1]] t).edges :=
  (mem_build_edges _ _ _ _).mpr ⟨by norm_num, by norm_num, by norm_num,
    by rw [show (([[1], [1]] : List (List ℝ)).getD 0 []) = [1] from rfl,
      show (([[1], [1]] : List (List ℝ)).getD 1 []) = [1] from rfl, calc_sim_single]
       exact ht,
    by rw [show (([[1], [1]] : List (List ℝ)).getD 0 []) = [1] from rfl,
      show (([[1], [1]] : List (List ℝ)).getD 1 []) = [1] from rfl, calc_sim_single]⟩

/-- Witness for claim C6 at the edge `(0, 1, 1)` of a concrete built graph. -/
theorem C6_witness :
    (0 : ℕ) < 1 ∧ (0 : ℕ) ≠ 1 ∧ (0 : ℝ) ≤ 1 ∧ (-1 : ℝ) ≤ 1 ∧ (1 : ℝ) ≤ 1 :=
  (C6_thm ["A", "B"] [[1], [1]] 0).1 (0, 1, 1) (edge_mem_example 0 (by norm_num))

/-! ### Export format (`C8`) and empty input (`C9`) -/

/-- Claim C8: the export consists of exactly the header line followed by exactly
one line per edge in edge order — no edge duplicated or dropped — each line
being source label, target label and the weight printed with 6 fractional
digits; in particular the two-edge example graph exports to exactly the
header plus `A, B, 1.000000` and `B, C, 0.500000`. -/
theorem C8_thm :
    (∀ g : SimGraph ℚ,
      (export_graph_to_csv g).length = g.edges.length + 1 ∧
      (export_graph_to_csv g).head? = some "Source,Target,Weight" ∧
      ∀ i, i < g.edges.length →
        (export_graph_to_csv g).getD (i + 1) "" =
          (g.nodes.getD (g.edges.getD i (0, 0, 0)).1 "") ++ ", " ++
            (g.nodes.getD (g.edges.getD i (0, 0, 0)).2.1 "") ++ ", " ++
            fmt6 (g.edges.getD i (0, 0, 0)).2.2) ∧
    export_graph_to_csv ⟨["A", "B", "C"], [(0, 1, 1), (1, 2, mkRat 1 2)]⟩ =
      ["Source,Target,Weight", "A, B, 1.000000", "B, C, 0.500000"] := by
  constructor
  · intro g
    refine ⟨by simp [export_graph_to_csv], rfl, ?_⟩
    intro i hi
    have hedge : g.edges.getD i (0, 0, 0) = g.edges[i] := by
      rw [List.getD_eq_getElem?_getD, List.getElem?_eq_getElem hi]
      rfl
    simp only [export_graph_to_csv, List.getD_cons_succ, hedge]
    rw [List.getD_eq_getElem?_getD, List.getElem?_map, List.getElem?_eq_getElem hi]
    rfl
  · decide

/-- Witness for claim C8 at a concrete one-edge graph and line index `0`. -/
theorem C8_witness :
    (export_graph_to_csv (⟨["A", "B"], [(0, 1, mkRat 1 2)]⟩ : SimGraph ℚ)).getD 1 "" =
      ((⟨["A", "B"], [(0, 1, mkRat 1 2)]⟩ : SimGraph ℚ).nodes.getD
          (((⟨["A", "B"], [(0, 1, mkRat 1 2)]⟩ : SimGraph ℚ).edges.getD 0 (0, 0, 0)).1) "") ++
        ", " ++
        ((⟨["A", "B"], [(0, 1, mkRat 1 2)]⟩ : SimGraph ℚ).nodes.getD
          (((⟨["A", "B"], [(0, 1, mkRat 1 2)]⟩ : SimGraph ℚ).edges.getD 0 (0, 0, 0)).2.1) "") ++
        ", " ++
        fmt6 (((⟨["A", "B"], [(0, 1, mkRat 1 2)]⟩ : SimGraph ℚ).edges.getD 0 (0, 0, 0)).2.2) :=
  (C8_thm.1 (⟨["A", "B"], [(0, 1, mkRat 1 2)]⟩ : SimGraph ℚ)).2.2 0 (by decide)

lemma calc_sim_nil_left (v : List ℝ) : calculate_similarity [] v = 0 := by
  unfold calculate_similarity
  rw [if_neg]
  rintro ⟨h1, _⟩
  simp only [List.map_nil, List.sum_nil, Real.sqrt_zero] at h1
  exact lt_irrefl 0 h1

/-- Claim C9 fails as stated: on empty input `build_similarity_graph` does not
fail with any error — it happily returns a graph.  With zero data rows it
returns the empty graph; with rows whose feature vectors are all empty (zero
usable feature columns) it still returns a graph holding every node. -/
theorem C9_counterexample :
    build_similarity_graph [] [] (1 / 2) = ⟨[], []⟩ ∧
    (build_similarity_graph ["A", "B"] [[], []] (1 / 2)).nodes = ["A", "B"] :=
  ⟨rfl, rfl⟩

/-- Claim C9, amended: zero data rows or zero usable feature values do not
abort the run; the builder returns a graph with exactly the input nodes, and
since every similarity against an empty vector is `0`, any positive
threshold yields no edges at all. -/
theorem C9_thm (nodes : List String) (t : ℝ) (ht : 0 < t)
    (fd : List (List ℝ)) (hfd : ∀ r ∈ fd, r = []) :
    (build_similarity_graph nodes fd t).nodes = nodes ∧
    (build_similarity_graph nodes fd t).edges = [] := by
  refine ⟨rfl, ?_⟩
  have hrow : ∀ i, fd.getD i [] = [] := by
    intro i
    rcases lt_or_ge i fd.length with h | h
    · rw [List.getD_eq_getElem?_getD, List.getElem?_eq_getElem h]
      exact hfd _ (List.get_mem fd i h)
    · rw [List.getD_eq_getElem?_getD, List.getElem?_eq_none (by simpa using h)]
      rfl
  simp only [build_similarity_graph]
  rw [List.flatMap_eq_nil_iff]
  intro i _
  rw [List.filterMap_eq_nil_iff]
  intro j _
  rw [hrow i, hrow j, calc_sim_nil_left]
  rw [if_neg (not_le.mpr ht)]

/-- Witness for claim C9's amended statement: two rows with no usable feature
values and threshold `1` give the two-node, zero-edge graph. -/
theorem C9_witness :
    (build_similarity_graph ["A", "B"] [[], []] 1).nodes = ["A", "B"] ∧
    (build_similarity_graph ["A", "B"] [[], []] 1).edges = [] :=
  C9_thm ["A", "B"] 1 (by norm_num) [[], []] (by
    intro r hr
    rcases List.mem_cons.mp hr with rfl | hr
    · rfl
    · rcases List.mem_cons.mp hr with rfl | hr
      · rfl
      · simp at hr)
